import Mathlib

/-
Verification of the WordPress image-migration pipeline (src/app.js, the full
revision: mysql + rackspace variant).  JS strings are modelled as `List Char`;
the asynchronous collaborators (HTTP fetch, object-store upload, database
update) are modelled as boolean oracles in an `Env`.  The promise machinery is
modelled by an explicit `RecordTrace` recording which effects `managePost`
performed and whether its deferred ever settled.
-/

namespace WPMigrate

/-- Coerce a Lean string literal to the `List Char` representation used for JS
strings throughout this development. -/
def str (s : String) : List Char := s.data

/-- Boolean test that `u` is an initial segment of `s` (JS
`s.indexOf(u) === 0` / `startsWith`). -/
def isPre : List Char → List Char → Bool
  | [], _ => true
  | _ :: _, [] => false
  | a :: as, b :: bs => a = b && isPre as bs

/-- JS `c.indexOf(u)`: index of the leftmost occurrence of `u` in `c`,
`none` when `indexOf` would return `-1`. -/
def firstIndex (u : List Char) : List Char → Option Nat
  | [] => if isPre u [] then some 0 else none
  | c :: cs =>
    if isPre u (c :: cs) then some 0 else (firstIndex u cs).map (fun i => i + 1)

/-- Number of positions of `c` at which `u` occurs (overlaps counted). -/
def countOccur (u : List Char) : List Char → Nat
  | [] => 0
  | c :: cs => (if isPre u (c :: cs) then 1 else 0) + countOccur u cs

/-- ECMAScript GetSubstitution for `String.prototype.replace` with a string
search value: expands the replacement patterns dollar-dollar, dollar-ampersand,
dollar-backquote and dollar-quote; everything else is literal.  `matched` is
the matched substring, `before` the part of the subject before the match and
`after` the part behind it. -/
def getSubstitution (matched before after : List Char) : List Char → List Char
  | [] => []
  | c :: rest =>
    if c = '$' then
      match rest with
      | [] => ['$']
      | d :: rest2 =>
        if d = '$' then '$' :: getSubstitution matched before after rest2
        else if d = '&' then matched ++ getSubstitution matched before after rest2
        else if d = Char.ofNat 96 then before ++ getSubstitution matched before after rest2
        else if d = Char.ofNat 39 then after ++ getSubstitution matched before after rest2
        else c :: d :: getSubstitution matched before after rest2
    else c :: getSubstitution matched before after rest

/-- JS `c.replace(u, v)` with string arguments: replaces only the leftmost
occurrence of `u`, expanding dollar-patterns of `v`; returns `c` unchanged if
`u` does not occur. -/
def replaceFirst (c u v : List Char) : List Char :=
  match firstIndex u c with
  | none => c
  | some i =>
    c.take i ++ getSubstitution u (c.take i) (c.drop (i + u.length)) v ++ c.drop (i + u.length)

/-- The per-key loop of `replaceResources`:
`while (newContent.indexOf(oldResource) >= 0) newContent = newContent.replace(oldResource, updates[oldResource])`.
The JS loop has no fuel; the `fuel` argument makes the embedding total, with
`none` meaning the loop has not finished within `fuel` iterations. -/
def replaceLoop : Nat → List Char → List Char → List Char → Option (List Char)
  | 0, c, u, _ => if (firstIndex u c).isSome then none else some c
  | n + 1, c, u, v =>
    if (firstIndex u c).isSome then replaceLoop n (replaceFirst c u v) u v else some c

/-- The `keys.forEach` of `replaceResources`: runs the per-key loop for each
entry of the update map in insertion order. -/
def applyUpdates (fuel : Nat) (content : List Char)
    (updates : List (List Char × List Char)) : Option (List Char) :=
  updates.foldl (fun acc kv => acc.bind (fun c => replaceLoop fuel c kv.1 kv.2)) (some content)

/-- Model of `replaceResources(postID, postContent, updates)` from src/app.js lines
399-422: early exit returning the content unchanged when the update map is
empty, otherwise replace every occurrence of every key. `pid` is only used for
logging in the source and does not influence the result. -/
def replaceResources (pid content : List Char)
    (updates : List (List Char × List Char)) (fuel : Nat) : Option (List Char) :=
  if updates.isEmpty then some content else applyUpdates fuel content updates

/-- The rewrite loop of `replaceResources` terminates on the given input (some
finite amount of fuel suffices). -/
def rewriteTerminates (pid content : List Char)
    (updates : List (List Char × List Char)) : Prop :=
  ∃ fuel, (replaceResources pid content updates fuel).isSome = true

/-- Node `path.basename` (posix): the final path segment, with trailing
separators stripped; `"/"` for an all-separator path, `""` for `""`. -/
def basename (s : List Char) : List Char :=
  let r := s.reverse.dropWhile (fun c => c == '/')
  if r.isEmpty then (if s.isEmpty then [] else ['/'])
  else (r.takeWhile (fun c => c != '/')).reverse

/- ---------------------------------------------------------------------
Resource extractor: a faithful matcher for the regular expression
(http://(www.)?macstories.net)?/(stuff|wp-content/uploads)/.+?\.(jpe?g|gif|png|zip|rar|gz)
used globally by `findResources` (src/app.js line 65), with JS backtracking
semantics.  Each sub-matcher consumes from the front of the char list and
returns the rest on success.
--------------------------------------------------------------------- -/

/-- JS regex `.` (dot): any character except the four line terminators. -/
def isLineTerm (c : Char) : Bool :=
  c = Char.ofNat 10 || c = Char.ofNat 13 || c = Char.ofNat 8232 || c = Char.ofNat 8233

/-- Consume a literal from the front of `s`. -/
def lit (p s : List Char) : Option (List Char) :=
  if isPre p s then some (s.drop p.length) else none

/-- Try a list of literal alternatives in order, as a regex alternation over
plain words does. -/
def tryLits : List (List Char) → List Char → Option (List Char)
  | [], _ => none
  | p :: ps, s =>
    match lit p s with
    | some r => some r
    | none => tryLits ps s

/-- The extension alternation `jpe?g|gif|png|zip|rar|gz`, alternatives tried
in source order with the greedy `e?` first. -/
def extAt (s : List Char) : Option (List Char) :=
  tryLits [str "jpeg", str "jpg", str "gif", str "png", str "zip", str "rar", str "gz"] s

/-- The tail `\.(jpe?g|...)` : a literal dot followed by an extension. -/
def dotExt (s : List Char) : Option (List Char) :=
  match lit (str ".") s with
  | none => none
  | some s1 => extAt s1

/-- The lazy `.+?` followed by `\.(ext)`: consume the minimal positive number
of non-line-terminator characters after which a dot and an extension match. -/
def lazyDot : List Char → Option (List Char)
  | [] => none
  | c :: rest =>
    if isLineTerm c then none
    else
      match dotExt rest with
      | some r => some r
      | none => lazyDot rest

/-- A separator then the lazy part: shared tail of both branch alternatives. -/
def branchRest (s : List Char) : Option (List Char) :=
  match lit (str "/") s with
  | none => none
  | some s1 => lazyDot s1

/-- Matcher for `\/(stuff|wp-content\/uploads)\/.+?\.(ext)` with backtracking between the
two alternatives. -/
def tailMatch (s : List Char) : Option (List Char) :=
  match lit (str "/") s with
  | none => none
  | some s1 =>
    match lit (str "stuff") s1 with
    | some s2 =>
      match branchRest s2 with
      | some r => some r
      | none =>
        match lit (str "wp-content/uploads") s1 with
        | some s2b => branchRest s2b
        | none => none
    | none =>
      match lit (str "wp-content/uploads") s1 with
      | some s2b => branchRest s2b
      | none => none

/-- Greedy optional `(www\.)?`: consume `www.` when it matches.  If `www.`
matches, `macstories` cannot also match at the same spot (`w` vs `m`), so
committing to the greedy choice is faithful to the backtracking engine. -/
def optWWW (s1 : List Char) : List Char :=
  match lit (str "www.") s1 with
  | some t => t
  | none => s1

/-- The optional host group `http:\/\/(www\.)?macstories.net`; the `.` before
`net` is unescaped in the source regex and matches any non-terminator
character. -/
def g1 (s : List Char) : Option (List Char) :=
  match lit (str "http://") s with
  | none => none
  | some s1 =>
    match lit (str "macstories") (optWWW s1) with
    | none => none
    | some s3 =>
      match s3 with
      | [] => none
      | c :: s4 => if isLineTerm c then none else lit (str "net") s4

/-- Try the whole regex at the current position: with the optional host group
first (greedy), retrying without it on failure, as a backtracking engine
does. -/
def matchAt (s : List Char) : Option (List Char) :=
  match g1 s with
  | some s1 =>
    match tailMatch s1 with
    | some r => some r
    | none => tailMatch s
  | none => tailMatch s

theorem isPre_length {u l : List Char} (h : isPre u l = true) : u.length ≤ l.length := by
  induction u generalizing l with
  | nil => simp
  | cons a as ih =>
    cases l with
    | nil => simp [isPre] at h
    | cons b bs =>
      simp only [isPre, Bool.and_eq_true] at h
      simpa [Nat.succ_le_succ_iff] using ih h.2

theorem lit_le {p s r : List Char} (h : lit p s = some r) : r.length ≤ s.length := by
  unfold lit at h
  split at h
  · cases h; simp
  · cases h

theorem lit_lt {p s r : List Char} (hp : p ≠ []) (h : lit p s = some r) :
    r.length < s.length := by
  unfold lit at h
  split at h
  · next hpre =>
    cases h
    have h1 : p.length ≤ s.length := isPre_length hpre
    have h2 : 0 < p.length := List.length_pos.mpr hp
    simp only [List.length_drop]
    omega
  · cases h

theorem tryLits_le {ps : List (List Char)} {s r : List Char}
    (h : tryLits ps s = some r) : r.length ≤ s.length := by
  induction ps with
  | nil => simp [tryLits] at h
  | cons p ps ih =>
    unfold tryLits at h
    cases hp : lit p s with
    | some t => rw [hp] at h; cases h; exact lit_le hp
    | none => rw [hp] at h; exact ih h

theorem extAt_le {s r : List Char} (h : extAt s = some r) : r.length ≤ s.length :=
  tryLits_le h

theorem dotExt_lt {s r : List Char} (h : dotExt s = some r) : r.length < s.length := by
  unfold dotExt at h
  split at h
  · cases h
  · next s1 heq =>
    have h1 : s1.length < s.length := lit_lt (by simp [str]) heq
    have h2 := extAt_le h
    omega

theorem lazyDot_lt {s r : List Char} (h : lazyDot s = some r) : r.length < s.length := by
  induction s with
  | nil => simp [lazyDot] at h
  | cons c rest ih =>
    unfold lazyDot at h
    split at h
    · cases h
    · split at h
      · next heq =>
        cases h
        have := dotExt_lt heq
        simp only [List.length_cons]
        omega
      · have := ih h
        simp only [List.length_cons]
        omega

theorem branchRest_lt {s r : List Char} (h : branchRest s = some r) : r.length < s.length := by
  unfold branchRest at h
  split at h
  · cases h
  · next s1 heq =>
    have h1 : s1.length < s.length := lit_lt (by simp [str]) heq
    have h2 := lazyDot_lt h
    omega

theorem tailMatch_lt {s r : List Char} (h : tailMatch s = some r) : r.length < s.length := by
  unfold tailMatch at h
  cases hslash : lit (str "/") s with
  | none => rw [hslash] at h; cases h
  | some s1 =>
    rw [hslash] at h
    dsimp only at h
    have h1 : s1.length < s.length := lit_lt (by simp [str]) hslash
    have hwp : ∀ {r' : List Char},
        (match lit (str "wp-content/uploads") s1 with
         | some s2b => branchRest s2b
         | none => none) = some r' → r'.length < s1.length := by
      intro r' hw
      cases hwp2 : lit (str "wp-content/uploads") s1 with
      | none => rw [hwp2] at hw; cases hw
      | some s2b =>
        rw [hwp2] at hw
        exact lt_of_lt_of_le (branchRest_lt hw) (lit_le hwp2)
    cases hst : lit (str "stuff") s1 with
    | none =>
      rw [hst] at h
      dsimp only at h
      exact lt_trans (hwp h) h1
    | some s2 =>
      rw [hst] at h
      dsimp only at h
      cases hbr : branchRest s2 with
      | none =>
        rw [hbr] at h
        exact lt_trans (hwp h) h1
      | some r0 =>
        rw [hbr] at h
        cases h
        exact lt_trans (lt_of_lt_of_le (branchRest_lt hbr) (lit_le hst)) h1

theorem optWWW_le (s1 : List Char) : (optWWW s1).length ≤ s1.length := by
  unfold optWWW
  cases hw : lit (str "www.") s1 with
  | none => exact le_refl _
  | some t => exact lit_le hw

theorem g1_le {s r : List Char} (h : g1 s = some r) : r.length ≤ s.length := by
  unfold g1 at h
  cases hh : lit (str "http://") s with
  | none => rw [hh] at h; cases h
  | some s1 =>
    rw [hh] at h
    dsimp only at h
    have h1 : s1.length ≤ s.length := lit_le hh
    have h2 : (optWWW s1).length ≤ s1.length := optWWW_le s1
    cases hm : lit (str "macstories") (optWWW s1) with
    | none => rw [hm] at h; cases h
    | some s3 =>
      rw [hm] at h
      dsimp only at h
      have h3 : s3.length ≤ (optWWW s1).length := lit_le hm
      cases s3 with
      | nil => cases h
      | cons c s4 =>
        dsimp only at h
        split at h
        · cases h
        · have h4 := lit_le h
          simp only [List.length_cons] at h3
          omega

theorem matchAt_lt {s r : List Char} (h : matchAt s = some r) : r.length < s.length := by
  unfold matchAt at h
  split at h
  · next s1 hg =>
    have h1 := g1_le hg
    split at h
    · next heq => cases h; exact lt_of_lt_of_le (tailMatch_lt heq) h1
    · exact tailMatch_lt h
  · exact tailMatch_lt h

/-- Fuel-bounded version of the global regex scan: collect the leftmost match
at or after the current position, then continue from the end of that match.
Every successful match consumes at least one character (`matchAt_lt`), so
`fuel = length of the string` always suffices; the fuel only serves to make
the recursion structural. -/
def scanF : Nat → List Char → List (List Char)
  | 0, _ => []
  | _ + 1, [] => []
  | fuel + 1, c :: cs =>
    match matchAt (c :: cs) with
    | some rest => (c :: cs).take (cs.length + 1 - rest.length) :: scanF fuel rest
    | none => scanF fuel cs

/-- The global scan of `String.prototype.match` with the `g` flag; `[]` when
there is no match (JS returns `null`, which `_.uniq` turns into `[]`). -/
def scan (s : List Char) : List (List Char) :=
  scanF s.length s

/-- Underscore `_.uniq(list, false)`: keep the first occurrence of each
element, in order.  `seen` is the list of already-emitted elements. -/
def uniqAux : List (List Char) → List (List Char) → List (List Char)
  | _, [] => []
  | seen, x :: xs =>
    if x ∈ seen then uniqAux seen xs else x :: uniqAux (x :: seen) xs

/-- Model of `findResources(postContent)` (src/app.js lines 273-275):
`_.uniq(postContent.match(rResource), false)`. -/
def findResources (postContent : List Char) : List (List Char) :=
  uniqAux [] (scan postContent)

/- ---------------------------------------------------------------------
Pipeline data model and collaborator oracles.
--------------------------------------------------------------------- -/

/-- Per-record statistics kept by `managePost` (`found`/`processed`/`failed`);
`processPosts` sums them into the global statistics. -/
structure Stats where
  found : Nat
  processed : Nat
  failed : Nat
deriving DecidableEq

/-- The value a `manageResource` promise resolves with (it is never
rejected). -/
structure ResourceOutcome where
  success : Bool
  oldResource : List Char
  newResource : Option (List Char)
deriving DecidableEq

/-- A row of the `wp_posts` query: `ID` and `post_content`.  The numeric ID is
modelled as its string form, as it is only ever concatenated into paths and
passed to oracles. -/
structure Post where
  ID : List Char
  post_content : List Char

/-- Oracles for the external collaborators: whether an HTTP fetch of a given
URL succeeds, whether a Rackspace upload of a given object name succeeds,
whether the database UPDATE for a given post ID succeeds, and the container's
CDN URL. -/
structure Env where
  fetchOk : List Char → Bool
  uploadOk : List Char → Bool
  updateOk : List Char → Bool
  cdnURL : List Char

/-- The URL resolution `resource.indexOf('http') === 0 ? resource : 'http://www.macstories.net' + resource`
(src/app.js line 328). -/
def resolveURL (r : List Char) : List Char :=
  if isPre (str "http") r then r else str "http://www.macstories.net" ++ r

/-- The temporary path `localPath = '/tmp/' + postID + '_' + path.basename(resource)`
(src/app.js lines 329-330). -/
def localPathOf (pid r : List Char) : List Char :=
  str "/tmp/" ++ pid ++ '_' :: basename (resolveURL r)

/-- The remote object name used by `uploadResource`:
`path.basename(localPath)` (src/app.js line 371). -/
def objectName (pid r : List Char) : List Char :=
  basename (localPathOf pid r)

/-- The CDN URL a successful upload resolves with:
`rackspaceCDNURL + '/' + basename` (src/app.js line 384). -/
def newLocation (env : Env) (pid r : List Char) : List Char :=
  env.cdnURL ++ '/' :: objectName pid r

/-- Model of `downloadResource(postID, resource)` (src/app.js lines 322-355): resolve
the reference to an absolute URL, stream it to `/tmp/<postID>_<basename>`;
resolves with the resolved URL and local path, rejects on a network or stream
error (oracle `fetchOk`). -/
def downloadResource (env : Env) (pid r : List Char) : Except Unit (List Char × List Char) :=
  if env.fetchOk (resolveURL r) then Except.ok (resolveURL r, localPathOf pid r)
  else Except.error ()

/-- Model of `uploadResource(resource, localPath)` (src/app.js lines 363-389): upload
the local file under `path.basename(localPath)` and resolve with the CDN URL,
rejecting on an upload error (oracle `uploadOk` keyed by the object name). -/
def uploadResource (env : Env) (resolved localPath : List Char) : Except Unit (List Char) :=
  if env.uploadOk (basename localPath) then Except.ok (env.cdnURL ++ '/' :: basename localPath)
  else Except.error ()

/-- Model of `manageResource(postID, resource)` (src/app.js lines 284-313): chain
download then upload; both failure paths are converted into a resolved
outcome with `success: false`, a success resolves with the new location.
`resolved` is unused by `uploadResource` beyond logging. -/
def manageResource (env : Env) (pid r : List Char) : ResourceOutcome :=
  match (downloadResource env pid r).bind (fun dl => uploadResource env dl.1 dl.2) with
  | Except.ok newRes => ⟨true, r, some newRes⟩
  | Except.error _ => ⟨false, r, none⟩

/-- The outcomes of the one-promise-per-resource fan-out of `managePost`
(src/app.js lines 224-226): one `manageResource` per unique reference. -/
def recordOutcomes (env : Env) (post : Post) : List ResourceOutcome :=
  (findResources post.post_content).map (fun r => manageResource env post.ID r)

/-- One step of the stats accumulation of `managePost` (lines 229-239):
`stats.found++` and one of `processed++`/`failed++` per settled outcome. -/
def statsStep (s : Stats) (o : ResourceOutcome) : Stats :=
  if o.success then ⟨s.found + 1, s.processed + 1, s.failed⟩
  else ⟨s.found + 1, s.processed, s.failed + 1⟩

/-- The per-record statistics after every dispatched migration has settled.
The handlers run once per outcome in settlement order; since the counters
are commutative sums, the list fold is order-faithful. -/
def statsOf (outs : List ResourceOutcome) : Stats :=
  outs.foldl statsStep ⟨0, 0, 0⟩

/-- The `updates` map of `managePost` (lines 229-239): an entry
`oldResource -> newResource` per succeeded outcome, in settlement order (a
JS object keeps string-key insertion order). -/
def updatesOf (outs : List ResourceOutcome) : List (List Char × List Char) :=
  outs.foldl
    (fun m o => if o.success then m ++ [(o.oldResource, o.newResource.getD [])] else m) []

/-- Observable behaviour of one `managePost` run: the stats it accumulated,
whether `updatePost` was invoked and with which content, the content left in
the database, which object-store deletions were issued, whether the
compensation handler threw, and whether the record's promise ever settled. -/
structure RecordTrace where
  stats : Stats
  updateCalled : Bool
  updateArg : List Char
  dbContent : List Char
  deletes : List (List Char)
  compThrew : Bool
  settled : Bool
deriving DecidableEq

/-- Model of `managePost(post)` (src/app.js lines 200-266), faithful to the source:

* zero resources: `deferred.resolve(stats)` runs but there is no `return`,
  so the flow continues into the rewrite/persist chain;
* after `Q.all`, `replaceResources` is invoked (`fuel`-bounded here), then
  `updatePost`;
* if `updatePost` succeeds, the deferred resolves (`settled`; a second
  `resolve` in the zero-resource case is a no-op);
* if `updatePost` fails, the rejection handler calls `deleteResources()`
  WITHOUT its `resources` argument, so `resources.forEach` throws a
  `TypeError` before any `destroyFile` call: no deletion is issued
  (`deletes = []`, `compThrew`), the `deferred.resolve(stats)` after it is
  never reached, and the promise only settles if the zero-resource early
  resolve already happened. -/
def managePost (env : Env) (fuel : Nat) (post : Post) : RecordTrace :=
  match replaceResources post.ID post.post_content (updatesOf (recordOutcomes env post)) fuel with
  | none =>
    ⟨statsOf (recordOutcomes env post), false, [], post.post_content, [], false,
      (findResources post.post_content).isEmpty⟩
  | some newContent =>
    if env.updateOk post.ID then
      ⟨statsOf (recordOutcomes env post), true, newContent, newContent, [], false, true⟩
    else
      ⟨statsOf (recordOutcomes env post), true, newContent, post.post_content, [], true,
        (findResources post.post_content).isEmpty⟩

/-- Elementwise sum of per-record statistics, as accumulated by the
`allPostsProcessed.forEach` handlers of `processPosts` (lines 176-182). -/
def sumStats (l : List Stats) : Stats :=
  l.foldl (fun a s => ⟨a.found + s.found, a.processed + s.processed, a.failed + s.failed⟩)
    ⟨0, 0, 0⟩

/-- Model of `processPosts(posts)` (src/app.js lines 158-191): fan out `managePost`
over all posts; the returned promise resolves with the summed stats once
`Q.all` fires, i.e. only if every record's promise settles — `none` models a
run that never resolves because some record promise stays pending. -/
def processPosts (env : Env) (fuel : Nat) (posts : List Post) : Option Stats :=
  if (posts.map (fun p => managePost env fuel p)).all (fun t => t.settled) then
    some (sumStats ((posts.map (fun p => managePost env fuel p)).map (fun t => t.stats)))
  else none

/-- Shape of the references the extractor can produce: absolute (starting
with `http`) or host-relative (starting with `/`) and not ending in a path
separator. -/
def wellFormedRef (r : List Char) : Bool :=
  isPre (str "http") r ||
    (decide (r.head? = some '/') && decide (r.getLast? ≠ some '/'))

/-- Oracle environment in which every collaborator call succeeds. -/
def envAllOk : Env :=
  ⟨fun _ => true, fun _ => true, fun _ => true, str "http://cdn"⟩

/-- Oracle environment in which fetches and uploads succeed but every
database UPDATE fails. -/
def envUpdateFail : Env :=
  ⟨fun _ => true, fun _ => true, fun _ => false, str "http://cdn"⟩

/-- Oracle environment in which every HTTP fetch fails. -/
def envFetchFail : Env :=
  ⟨fun _ => false, fun _ => true, fun _ => true, str "http://cdn"⟩

/- ---------------------------------------------------------------------
Statistics bookkeeping lemmas.
--------------------------------------------------------------------- -/

theorem statsStep_found (s : Stats) (o : ResourceOutcome) :
    (statsStep s o).found = s.found + 1 ∧
    (statsStep s o).processed + (statsStep s o).failed = s.processed + s.failed + 1 := by
  unfold statsStep
  cases h : o.success <;> simp [h] <;> omega

theorem foldl_statsStep (l : List ResourceOutcome) : ∀ s : Stats,
    (l.foldl statsStep s).found = s.found + l.length ∧
    (l.foldl statsStep s).processed + (l.foldl statsStep s).failed
      = s.processed + s.failed + l.length := by
  induction l with
  | nil => intro s; simp
  | cons o l ih =>
    intro s
    have hstep := statsStep_found s o
    have h := ih (statsStep s o)
    simp only [List.foldl_cons, List.length_cons]
    omega

theorem statsOf_spec (l : List ResourceOutcome) :
    (statsOf l).found = l.length ∧ (statsOf l).processed + (statsOf l).failed = l.length := by
  simpa [statsOf] using foldl_statsStep l ⟨0, 0, 0⟩

theorem managePost_stats (env : Env) (fuel : Nat) (post : Post) :
    (managePost env fuel post).stats = statsOf (recordOutcomes env post) := by
  unfold managePost
  split
  · rfl
  · split <;> rfl

/- ---------------------------------------------------------------------
Claim theorems (first batch).
--------------------------------------------------------------------- -/

/-- C1 (code bug evaluation).  A record whose content yields zero resource
references is NOT left untouched by the code: `managePost` resolves the
deferred with `{0,0,0}` but, lacking a `return` after the "early exit",
still proceeds to call `updatePost` with the (unchanged) content.  The
claimed `RecordStats = {0,0,0}` does hold. -/
theorem managePost_zero_refs_calls_updatePost :
    findResources (str "hello world") = [] ∧
    managePost envAllOk 1 ⟨str "1", str "hello world"⟩ =
      ⟨⟨0, 0, 0⟩, true, str "hello world", str "hello world", [], false, true⟩ := by
  decide

/-- C2 (code bug evaluation).  When `updatePost` fails after a successful
migration, the rejection handler calls `deleteResources()` with no argument:
no deletion request is issued for the uploaded object (`deletes = []`, the
handler throws a `TypeError` instead), and because `deferred.resolve(stats)`
sits after the throwing call, the record's promise never settles
(`settled = false`).  Only the "stored content remains the original" part of
the claim holds (`dbContent` is the original content). -/
theorem managePost_persist_failure_no_compensation :
    updatesOf (recordOutcomes envUpdateFail ⟨str "2", str "see /stuff/a.jpg"⟩) =
      [(str "/stuff/a.jpg", str "http://cdn/2_a.jpg")] ∧
    managePost envUpdateFail 3 ⟨str "2", str "see /stuff/a.jpg"⟩ =
      ⟨⟨1, 1, 0⟩, true, str "see http://cdn/2_a.jpg", str "see /stuff/a.jpg", [], true, false⟩ := by
  decide

/-- C3.  For every record and every oracle environment, once all dispatched
migrations have settled the per-record statistics satisfy
`processed + failed = found`, and `found` equals the number of unique
references dispatched (the length of `findResources` of the content). -/
theorem recordStats_conservation (env : Env) (fuel : Nat) (post : Post) :
    (managePost env fuel post).stats.processed + (managePost env fuel post).stats.failed
        = (managePost env fuel post).stats.found ∧
    (managePost env fuel post).stats.found = (findResources post.post_content).length := by
  have hs := managePost_stats env fuel post
  have h := statsOf_spec (recordOutcomes env post)
  have hlen : (recordOutcomes env post).length = (findResources post.post_content).length := by
    unfold recordOutcomes
    simp
  rw [hs]
  omega

/-- C4 (code bug evaluation).  `processPosts` does not always complete once
dispatch has started: a single record whose persistence fails leaves its
promise forever pending (see C2), so `Q.all` never fires and the coordinator
never resolves (`none`).  When every record settles, it does resolve with the
elementwise sum of the per-record statistics (second conjunct). -/
theorem processPosts_hangs_on_persist_failure :
    processPosts envUpdateFail 3 [⟨str "2", str "see /stuff/a.jpg"⟩] = none ∧
    processPosts envAllOk 3 [⟨str "2", str "see /stuff/a.jpg"⟩, ⟨str "1", str "hello world"⟩] =
      some ⟨1, 1, 0⟩ := by
  decide

/-- C5.  `manageResource` always produces a `ResourceOutcome` and never
rejects: the outcome always carries the original reference; a fetch failure
or an upload failure yields `{success:false, newResource:null}`; success of
both yields `{success:true, newResource:newLocation}`. -/
theorem manageResource_total_outcome (env : Env) (pid r : List Char) :
    (manageResource env pid r).oldResource = r ∧
    (env.fetchOk (resolveURL r) = false → manageResource env pid r = ⟨false, r, none⟩) ∧
    (env.uploadOk (objectName pid r) = false → manageResource env pid r = ⟨false, r, none⟩) ∧
    (env.fetchOk (resolveURL r) = true → env.uploadOk (objectName pid r) = true →
      manageResource env pid r = ⟨true, r, some (newLocation env pid r)⟩) := by
  unfold manageResource downloadResource uploadResource newLocation objectName
  cases hf : env.fetchOk (resolveURL r) <;>
    cases hu : env.uploadOk (basename (localPathOf pid r)) <;>
      simp [hf, hu, Except.bind]

/-- Witness for C5 at concrete inputs: a successful migration and a failed
fetch. -/
theorem manageResource_total_outcome_witness :
    manageResource envAllOk (str "1") (str "/stuff/a.jpg")
        = ⟨true, str "/stuff/a.jpg", some (str "http://cdn/1_a.jpg")⟩ ∧
    manageResource envFetchFail (str "1") (str "/stuff/a.jpg")
        = ⟨false, str "/stuff/a.jpg", none⟩ := by
  constructor
  · have h := (manageResource_total_outcome envAllOk (str "1") (str "/stuff/a.jpg")).2.2.2
      (by decide) (by decide)
    exact h.trans (by decide)
  · exact (manageResource_total_outcome envFetchFail (str "1") (str "/stuff/a.jpg")).2.1
      (by decide)

/-- C7.  `replaceResources` with an empty update map returns the content
unchanged (the early exit of src/app.js lines 402-406), for every content,
post ID and fuel. -/
theorem replaceResources_empty_map_identity (pid content : List Char) (fuel : Nat) :
    replaceResources pid content [] fuel = some content := by
  simp [replaceResources]

/- ---------------------------------------------------------------------
Uniqueness of the extracted reference list (C8).
--------------------------------------------------------------------- -/

theorem mem_uniqAux (l : List (List Char)) : ∀ (seen : List (List Char)) (x : List Char),
    x ∈ uniqAux seen l ↔ (x ∈ l ∧ x ∉ seen) := by
  induction l with
  | nil => intro seen x; simp [uniqAux]
  | cons y ys ih =>
    intro seen x
    unfold uniqAux
    by_cases hy : y ∈ seen
    · rw [if_pos hy, ih]
      constructor
      · rintro ⟨hx, hns⟩
        exact ⟨List.mem_cons_of_mem _ hx, hns⟩
      · rintro ⟨hx, hns⟩
        rcases List.mem_cons.mp hx with rfl | hx
        · exact (hns hy).elim
        · exact ⟨hx, hns⟩
    · rw [if_neg hy]
      constructor
      · intro hx
        rcases List.mem_cons.mp hx with rfl | hx
        · exact ⟨List.mem_cons_self _ _, hy⟩
        · have h := (ih (y :: seen) x).mp hx
          exact ⟨List.mem_cons_of_mem _ h.1, fun hs => h.2 (List.mem_cons_of_mem _ hs)⟩
      · rintro ⟨hx, hns⟩
        rcases List.mem_cons.mp hx with rfl | hx
        · exact List.mem_cons_self _ _
        · by_cases hxy : x = y
          · subst hxy; exact List.mem_cons_self _ _
          · refine List.mem_cons_of_mem _ ((ih (y :: seen) x).mpr ⟨hx, ?_⟩)
            intro hs
            rcases List.mem_cons.mp hs with h | h
            · exact hxy h
            · exact hns h

theorem uniqAux_nodup (l : List (List Char)) : ∀ seen, (uniqAux seen l).Nodup := by
  induction l with
  | nil => intro seen; simp [uniqAux]
  | cons y ys ih =>
    intro seen
    unfold uniqAux
    by_cases hy : y ∈ seen
    · rw [if_pos hy]; exact ih seen
    · rw [if_neg hy]
      refine List.nodup_cons.mpr ⟨?_, ih (y :: seen)⟩
      intro hmem
      exact ((mem_uniqAux ys (y :: seen) y).mp hmem).2 (List.mem_cons_self _ _)

/-- C8.  `findResources` never fails and returns the unique set of matching
references: the result has no duplicates, has exactly the elements produced by
the regex scan, is empty when the scan finds nothing, and `managePost`
dispatches exactly one migration per element of it; in particular the content
of Scenario A, which contains `/stuff/a.jpg` twice, extracts to the singleton
list. -/
theorem findResources_unique_spec (c : List Char) (env : Env) (post : Post) :
    (findResources c).Nodup ∧
    (∀ r, r ∈ findResources c ↔ r ∈ scan c) ∧
    (scan c = [] → findResources c = []) ∧
    (recordOutcomes env post).length = (findResources post.post_content).length ∧
    findResources (str "see /stuff/a.jpg and /stuff/a.jpg") = [str "/stuff/a.jpg"] := by
  refine ⟨uniqAux_nodup _ [], ?_, ?_, ?_, by decide⟩
  · intro r
    unfold findResources
    rw [mem_uniqAux]
    simp
  · intro h
    unfold findResources
    rw [h]
    rfl
  · unfold recordOutcomes
    simp

/-- Witness for C8: unmatched content extracts to the empty list. -/
theorem findResources_unique_spec_witness :
    findResources (str "no references here") = [] :=
  (findResources_unique_spec (str "no references here") envAllOk ⟨str "1", str "x"⟩).2.2.1
    (by decide)

/- ---------------------------------------------------------------------
Object naming (C10): the object name and CDN URL depend only on the post ID
and the basename of the reference.
--------------------------------------------------------------------- -/

theorem takeWhile_append_all {p : Char → Bool} {l m : List Char}
    (h : ∀ a ∈ l, p a = true) : (l ++ m).takeWhile p = l ++ m.takeWhile p := by
  induction l with
  | nil => simp
  | cons x xs ih =>
    have hx : p x = true := h x (List.mem_cons_self _ _)
    simp only [List.cons_append, List.takeWhile_cons, hx, if_pos]
    rw [ih (fun a ha => h a (List.mem_cons_of_mem _ ha))]

theorem takeWhile_append_stop {p : Char → Bool} {l m : List Char}
    (h : ∃ a ∈ l, p a = false) : (l ++ m).takeWhile p = l.takeWhile p := by
  induction l with
  | nil =>
    obtain ⟨a, ha, _⟩ := h
    exact absurd ha (List.not_mem_nil a)
  | cons x xs ih =>
    cases hx : p x with
    | false => simp [List.takeWhile_cons, hx]
    | true =>
      simp only [List.cons_append, List.takeWhile_cons, hx, if_pos]
      obtain ⟨a, ha, hpa⟩ := h
      rcases List.mem_cons.mp ha with rfl | ha
      · rw [hx] at hpa; cases hpa
      · rw [ih ⟨a, ha, hpa⟩]

/-- Any path whose final segment starts right after a separator and contains
no separator is its own basename. -/
theorem basename_after_slash (v w : List Char) (hw : w ≠ [])
    (hsl : ∀ a ∈ w, a ≠ '/') : basename (v ++ '/' :: w) = w := by
  have hrev : (v ++ '/' :: w).reverse = w.reverse ++ '/' :: v.reverse := by
    simp
  have hw' : w.reverse ≠ [] := by simpa using hw
  obtain ⟨c, t, hct⟩ := List.exists_cons_of_ne_nil hw'
  have hc : c ∈ w := by
    have : c ∈ w.reverse := by rw [hct]; exact List.mem_cons_self _ _
    simpa using this
  have hcne : (c == '/') = false := by
    simpa using hsl c hc
  unfold basename
  rw [hrev, hct]
  simp only [List.cons_append, List.dropWhile_cons, hcne]
  simp only [Bool.false_eq_true, if_false, List.isEmpty_cons]
  rw [show c :: (t ++ '/' :: v.reverse) = (c :: t) ++ '/' :: v.reverse from rfl]
  rw [@takeWhile_append_all (fun a => a != '/') (c :: t) ('/' :: v.reverse) ?hall]
  case hall =>
    intro a ha
    have : a ∈ w := by
      have : a ∈ w.reverse := by rw [hct]; exact ha
      simpa using this
    simpa using hsl a this
  have hstop : List.takeWhile (fun a => a != '/') ('/' :: v.reverse) = [] := by
    simp [List.takeWhile_cons]
  rw [hstop, List.append_nil, ← hct]
  simp

/-- A string with an element distinct from the separator has a nonempty,
separator-free basename. -/
theorem basename_props (s : List Char) (h : ∃ a ∈ s, a ≠ '/') :
    basename s ≠ [] ∧ ∀ a ∈ basename s, a ≠ '/' := by
  have hdw : ∀ (l : List Char), (∃ a ∈ l, (a == '/') = false) →
      ∃ c t, l.dropWhile (fun x => x == '/') = c :: t ∧ (c == '/') = false := by
    intro l hl
    induction l with
    | nil =>
      obtain ⟨a, ha, _⟩ := hl
      exact absurd ha (List.not_mem_nil a)
    | cons x xs ih =>
      cases hx : (x == '/') with
      | false => exact ⟨x, xs, by simp [List.dropWhile_cons, hx], hx⟩
      | true =>
        obtain ⟨a, ha, hpa⟩ := hl
        rcases List.mem_cons.mp ha with rfl | ha
        · rw [hx] at hpa; cases hpa
        · obtain ⟨c, t, hct, hc⟩ := ih ⟨a, ha, hpa⟩
          exact ⟨c, t, by simp [List.dropWhile_cons, hx, hct], hc⟩
  have hrevex : ∃ a ∈ s.reverse, (a == '/') = false := by
    obtain ⟨a, ha, hne⟩ := h
    exact ⟨a, by simpa using ha, by simpa using hne⟩
  obtain ⟨c, t, hct, hc⟩ := hdw s.reverse hrevex
  unfold basename
  rw [hct]
  simp only [List.isEmpty_cons, Bool.false_eq_true, if_false]
  have hcne : c ≠ '/' := by simpa using hc
  constructor
  · intro hcontr
    have hstep : List.takeWhile (fun a => a != '/') (c :: t)
        = c :: List.takeWhile (fun a => a != '/') t := by
      simp [List.takeWhile_cons, hcne]
    rw [hstep] at hcontr
    simp at hcontr
  · intro a ha
    have ha' : a ∈ List.takeWhile (fun x => x != '/') (c :: t) := by
      simpa using ha
    have := List.mem_takeWhile_imp ha'
    simpa using this

theorem resolveURL_has_nonsep (r : List Char) (h : wellFormedRef r = true) :
    ∃ a ∈ resolveURL r, a ≠ '/' := by
  unfold wellFormedRef at h
  rcases Bool.or_eq_true_iff.mp h with hhttp | _
  · unfold resolveURL
    rw [hhttp]
    cases r with
    | nil => simp [isPre] at hhttp
    | cons c rs =>
      have hc : c = 'h' := by
        have : isPre (str "http") (c :: rs) = true := hhttp
        rw [show str "http" = 'h' :: str "ttp" from rfl] at this
        simp only [isPre, Bool.and_eq_true, decide_eq_true_eq] at this
        exact this.1.symm
      exact ⟨c, List.mem_cons_self _ _, by rw [hc]; decide⟩
  · refine ⟨'h', ?_, by decide⟩
    unfold resolveURL
    cases hpre : isPre (str "http") r with
    | true =>
      cases r with
      | nil => simp [isPre, str] at hpre
      | cons c rs =>
        rw [show str "http" = 'h' :: str "ttp" from rfl] at hpre
        simp only [isPre, Bool.and_eq_true, decide_eq_true_eq] at hpre
        simp only [if_pos]
        rw [← hpre.1]
        exact List.mem_cons_self _ _
    | false =>
      simp only [Bool.false_eq_true, if_false]
      refine List.mem_append_left _ ?_
      decide

theorem basename_resolveURL (r : List Char) (h : wellFormedRef r = true) :
    basename (resolveURL r) = basename r := by
  unfold wellFormedRef at h
  rcases Bool.or_eq_true_iff.mp h with hhttp | hrel
  · unfold resolveURL
    rw [hhttp]
    simp
  · simp only [Bool.and_eq_true, decide_eq_true_eq] at hrel
    obtain ⟨hhead, hlast⟩ := hrel
    obtain ⟨c0, rs, rfl⟩ : ∃ c0 rs, r = c0 :: rs := by
      cases r with
      | nil => simp at hhead
      | cons c0 rs => exact ⟨c0, rs, rfl⟩
    have hc0 : c0 = '/' := by simpa using hhead
    subst hc0
    have hnothttp : isPre (str "http") ('/' :: rs) = false := by
      rw [show str "http" = 'h' :: str "ttp" from rfl]
      simp [isPre]
    unfold resolveURL
    rw [hnothttp]
    simp only [Bool.false_eq_true, if_false]
    -- the appended host does not change the basename because the reference
    -- ends in a non-separator and already contains a separator
    have hrevne : ('/' :: rs).reverse ≠ [] := by simp
    obtain ⟨c, t, hct⟩ := List.exists_cons_of_ne_nil hrevne
    have hcl : ('/' :: rs).getLast? = some c := by
      rw [← List.head?_reverse, hct]
      rfl
    have hcne : c ≠ '/' := by
      intro hcontr
      rw [hcontr] at hcl
      exact hlast hcl
    have hcb : (c == '/') = false := by simpa using hcne
    unfold basename
    rw [show str "http://www.macstories.net" ++ '/' :: rs
          = str "http://www.macstories.net" ++ ('/' :: rs) from rfl]
    rw [List.reverse_append, hct]
    simp only [List.cons_append, List.dropWhile_cons, hcb, Bool.false_eq_true, if_false,
      List.isEmpty_cons]
    rw [show c :: (t ++ (str "http://www.macstories.net").reverse)
          = (c :: t) ++ (str "http://www.macstories.net").reverse from rfl]
    rw [takeWhile_append_stop ?hex]
    case hex =>
      refine ⟨'/', ?_, by decide⟩
      have : '/' ∈ ('/' :: rs).reverse := by simp
      rw [hct] at this
      exact this

theorem objectName_eq (pid r : List Char) (hr : wellFormedRef r = true) (hp : '/' ∉ pid) :
    objectName pid r = pid ++ '_' :: basename r := by
  unfold objectName localPathOf
  have hprops := basename_props (resolveURL r) (resolveURL_has_nonsep r hr)
  have hb := basename_resolveURL r hr
  have hsplit : str "/tmp/" ++ pid ++ '_' :: basename (resolveURL r)
      = str "/tmp" ++ '/' :: (pid ++ '_' :: basename (resolveURL r)) := by
    simp [str]
  rw [hsplit, basename_after_slash _ _ ?hne ?hnosl, hb]
  case hne => simp
  case hnosl =>
    intro a ha
    rcases List.mem_append.mp ha with ha | ha
    · intro hcontr; rw [hcontr] at ha; exact hp ha
    · rcases List.mem_cons.mp ha with rfl | ha
      · decide
      · exact hprops.2 a ha

/-- C10.  The uploaded object name and the produced CDN URL depend only on
the post ID and the basename of the reference: two references of the same
record sharing a basename collide on the identical object name
`postID + '_' + basename` and the identical new location. -/
theorem newLocation_basename_collision (env : Env) (pid r1 r2 : List Char)
    (h1 : wellFormedRef r1 = true) (h2 : wellFormedRef r2 = true)
    (hp : '/' ∉ pid) (hb : basename r1 = basename r2) :
    objectName pid r1 = objectName pid r2 ∧
    newLocation env pid r1 = newLocation env pid r2 ∧
    objectName pid r1 = pid ++ '_' :: basename r1 := by
  have e1 := objectName_eq pid r1 h1 hp
  have e2 := objectName_eq pid r2 h2 hp
  refine ⟨?_, ?_, e1⟩
  · rw [e1, e2, hb]
  · unfold newLocation
    rw [e1, e2, hb]

/- ---------------------------------------------------------------------
Structure of the leftmost-replacement loop (C6, C9): decomposition of the
string at the first occurrence and evolution of the occurrence count.
--------------------------------------------------------------------- -/

theorem isPre_self_append (u t : List Char) : isPre u (u ++ t) = true := by
  induction u with
  | nil => rfl
  | cons a as ih => simp [isPre, ih]

theorem isPre_append_right {u d : List Char} (h : isPre u d = true) (t : List Char) :
    isPre u (d ++ t) = true := by
  induction u generalizing d with
  | nil => rfl
  | cons a as ih =>
    cases d with
    | nil => simp [isPre] at h
    | cons b bs =>
      simp only [isPre, Bool.and_eq_true, decide_eq_true_eq] at h ⊢
      exact ⟨h.1, ih h.2⟩

theorem isPre_of_append_le {u d t : List Char} (h : isPre u (d ++ t) = true)
    (hlen : u.length ≤ d.length) : isPre u d = true := by
  induction u generalizing d with
  | nil => rfl
  | cons a as ih =>
    cases d with
    | nil => simp at hlen
    | cons b bs =>
      simp only [List.cons_append, isPre, Bool.and_eq_true, decide_eq_true_eq] at h ⊢
      exact ⟨h.1, ih h.2 (by simpa [Nat.succ_le_succ_iff] using hlen)⟩

theorem isPre_append_split {u d t : List Char} (h : isPre u (d ++ t) = true)
    (hlen : d.length ≤ u.length) :
    isPre d u = true ∧ isPre (u.drop d.length) t = true := by
  induction d generalizing u with
  | nil => exact ⟨rfl, h⟩
  | cons b bs ih =>
    cases u with
    | nil => simp at hlen
    | cons a as =>
      simp only [List.cons_append, isPre, Bool.and_eq_true, decide_eq_true_eq] at h ⊢
      obtain ⟨rfl, h2⟩ := h
      have := ih h2 (by simpa [Nat.succ_le_succ_iff] using hlen)
      exact ⟨⟨rfl, this.1⟩, this.2⟩

theorem isPre_decomp {u l : List Char} (h : isPre u l = true) :
    l = u ++ l.drop u.length := by
  induction u generalizing l with
  | nil => simp
  | cons a as ih =>
    cases l with
    | nil => simp [isPre] at h
    | cons b bs =>
      simp only [isPre, Bool.and_eq_true, decide_eq_true_eq] at h
      obtain ⟨rfl, h2⟩ := h
      simpa using ih h2

theorem firstIndex_le {u c : List Char} {i : Nat} (h : firstIndex u c = some i) :
    i ≤ c.length := by
  induction c generalizing i with
  | nil =>
    unfold firstIndex at h
    split at h
    · cases h; simp
    · cases h
  | cons x cs ih =>
    unfold firstIndex at h
    split at h
    · cases h; simp
    · cases hr : firstIndex u cs with
      | none => rw [hr] at h; cases h
      | some j =>
        rw [hr] at h
        have hi : i = j + 1 := by simpa using h.symm
        subst hi
        have := ih hr
        simp only [List.length_cons]
        omega

theorem firstIndex_decomp {u c : List Char} {i : Nat} (h : firstIndex u c = some i) :
    (∀ j, j < i → isPre u (c.drop j) = false) ∧ isPre u (c.drop i) = true := by
  induction c generalizing i with
  | nil =>
    unfold firstIndex at h
    split at h
    · next hpre => cases h; exact ⟨fun j hj => absurd hj (by omega), hpre⟩
    · cases h
  | cons x cs ih =>
    unfold firstIndex at h
    split at h
    · next hpre => cases h; exact ⟨fun j hj => absurd hj (by omega), hpre⟩
    · next hnpre =>
      cases hr : firstIndex u cs with
      | none => rw [hr] at h; cases h
      | some j =>
        rw [hr] at h
        have hi : i = j + 1 := by simpa using h.symm
        subst hi
        obtain ⟨hleft, hat⟩ := ih hr
        refine ⟨?_, hat⟩
        intro j2 hj2
        cases j2 with
        | zero => simpa using hnpre
        | succ j3 => exact hleft j3 (by omega)

/-- With no dollar sign in the replacement, GetSubstitution is the identity on
it. -/
theorem getSubstitution_no_dollar {v : List Char} (m b a : List Char) (h : '$' ∉ v) :
    getSubstitution m b a v = v := by
  induction v with
  | nil => rfl
  | cons c rest ih =>
    have hc : ¬ c = '$' := fun hcontr => h (hcontr ▸ List.mem_cons_self _ _)
    have hrest : '$' ∉ rest := fun hcontr => h (List.mem_cons_of_mem _ hcontr)
    unfold getSubstitution
    rw [if_neg hc, ih hrest]

/-- At the first occurrence the subject splits as `p ++ u ++ t` and a
dollar-free replacement rewrites it to `p ++ v ++ t`. -/
theorem replaceFirst_split {u c v : List Char} {i : Nat} (hfi : firstIndex u c = some i)
    (hd : '$' ∉ v) :
    c = c.take i ++ (u ++ c.drop (i + u.length)) ∧
    replaceFirst c u v = c.take i ++ (v ++ c.drop (i + u.length)) := by
  obtain ⟨hleft, hat⟩ := firstIndex_decomp hfi
  have hdec : c.drop i = u ++ c.drop (i + u.length) := by
    have h1 := isPre_decomp hat
    rwa [List.drop_drop] at h1
  constructor
  · conv_lhs => rw [← List.take_append_drop i c]
    rw [hdec]
  · unfold replaceFirst
    rw [hfi]
    dsimp only
    rw [getSubstitution_no_dollar _ _ _ hd, List.append_assoc]

theorem countOccur_cons (u : List Char) (x : Char) (cs : List Char) :
    countOccur u (x :: cs) = (if isPre u (x :: cs) then 1 else 0) + countOccur u cs := rfl

theorem countOccur_cons_le (u : List Char) (x : Char) (cs : List Char) :
    countOccur u cs ≤ countOccur u (x :: cs) := by
  rw [countOccur_cons]
  split <;> omega

theorem countOccur_append_le (u t : List Char) : ∀ w, countOccur u t ≤ countOccur u (w ++ t) := by
  intro w
  induction w with
  | nil => simp
  | cons x xs ih => exact le_trans ih (countOccur_cons_le u x (xs ++ t))

theorem countOccur_self_append {u : List Char} (hu : u ≠ []) (t : List Char) :
    countOccur u t + 1 ≤ countOccur u (u ++ t) := by
  obtain ⟨h, u', rfl⟩ := List.exists_cons_of_ne_nil hu
  have hind : isPre (h :: u') ((h :: u') ++ t) = true := isPre_self_append _ _
  rw [show (h :: u') ++ t = h :: (u' ++ t) from rfl, countOccur_cons]
  rw [show h :: (u' ++ t) = (h :: u') ++ t from rfl, hind]
  rw [show (if (true : Bool) = true then (1 : Nat) else 0) = 1 from rfl]
  have := countOccur_append_le (h :: u') t u'
  omega

/-- Inserted text sharing no character with `u` hosts no occurrence of `u`:
occurrences of `u` in `v ++ t` are exactly those of `t`. -/
theorem countOccur_disjoint_append {u v : List Char} (hu : u ≠ [])
    (hdis : ∀ a ∈ v, a ∉ u) (t : List Char) :
    countOccur u (v ++ t) = countOccur u t := by
  induction v with
  | nil => simp
  | cons a v' ih =>
    have hnpre : isPre u (a :: (v' ++ t)) = false := by
      obtain ⟨h, u', rfl⟩ := List.exists_cons_of_ne_nil hu
      cases hp : isPre (h :: u') (a :: (v' ++ t)) with
      | false => rfl
      | true =>
        simp only [isPre, Bool.and_eq_true, decide_eq_true_eq] at hp
        exact absurd (hp.1 ▸ List.mem_cons_self h u')
          (fun hmem => hdis a (List.mem_cons_self _ _) (hp.1 ▸ hmem))
    rw [show (a :: v') ++ t = a :: (v' ++ t) from rfl, countOccur_cons, hnpre]
    simpa using ih (fun b hb => hdis b (List.mem_cons_of_mem _ hb))

/-- If no occurrence of `u` starts inside the prefix `p`, the count over
`p ++ s` is the count over `s`. -/
theorem countOccur_shift {u : List Char} : ∀ {p s : List Char},
    (∀ j, j < p.length → isPre u ((p ++ s).drop j) = false) →
    countOccur u (p ++ s) = countOccur u s := by
  intro p
  induction p with
  | nil => intro s _; simp
  | cons y p' ih =>
    intro s h
    have h0 : isPre u (y :: (p' ++ s)) = false := by
      simpa using h 0 (by simp)
    rw [show (y :: p') ++ s = y :: (p' ++ s) from rfl, countOccur_cons, h0]
    simp only [Bool.false_eq_true, if_false, Nat.zero_add]
    refine ih ?_
    intro j hj
    have := h (j + 1) (by simpa using Nat.succ_lt_succ hj)
    simpa using this

theorem drop_append_le {p s : List Char} {j : Nat} (h : j ≤ p.length) :
    (p ++ s).drop j = p.drop j ++ s := by
  rw [List.drop_append_eq_append_drop, Nat.sub_eq_zero_of_le h]
  rfl

/-- Crux of the termination argument: when the replacement shares no
character with the (nonempty) key and carries no dollar pattern, each loop
iteration strictly decreases the number of key occurrences. -/
theorem countOccur_replaceFirst_lt {u v c : List Char} (hu : u ≠ []) (hv : v ≠ [])
    (hd : '$' ∉ v) (hdis : ∀ a ∈ v, a ∉ u) {i : Nat} (hfi : firstIndex u c = some i) :
    countOccur u (replaceFirst c u v) < countOccur u c := by
  obtain ⟨hceq, hrf⟩ := replaceFirst_split hfi hd
  obtain ⟨hleft, _⟩ := firstIndex_decomp hfi
  have hile : i ≤ c.length := firstIndex_le hfi
  have hplen : (c.take i).length = i := by
    rw [List.length_take]
    omega
  -- no occurrence of u starts inside the prefix of the REWRITTEN string
  have hnew : ∀ j, j < (c.take i).length →
      isPre u ((c.take i ++ (v ++ c.drop (i + u.length))).drop j) = false := by
    intro j hj
    rw [drop_append_le (by omega)]
    cases hp : isPre u ((c.take i).drop j ++ (v ++ c.drop (i + u.length))) with
    | false => rfl
    | true =>
      exfalso
      have hdlen : ((c.take i).drop j).length = i - j := by
        simp [List.length_drop, hplen]
      rcases Nat.lt_or_ge ((c.take i).drop j).length u.length with hlt | hge
      · -- the occurrence would reach the first inserted character
        obtain ⟨hpre, hrest⟩ := isPre_append_split hp (le_of_lt hlt)
        have hne : u.drop ((c.take i).drop j).length ≠ [] := by
          intro hcontr
          have hlen0 := congrArg List.length hcontr
          simp only [List.length_drop, List.length_nil] at hlen0
          omega
        obtain ⟨h2, u', hu2⟩ := List.exists_cons_of_ne_nil hne
        obtain ⟨a, v', rfl⟩ := List.exists_cons_of_ne_nil hv
        rw [hu2] at hrest
        have hha : h2 = a := by
          rw [show (a :: v') ++ c.drop (i + u.length)
                = a :: (v' ++ c.drop (i + u.length)) from rfl] at hrest
          simp only [isPre, Bool.and_eq_true, decide_eq_true_eq] at hrest
          exact hrest.1
        have hmemu : h2 ∈ u := by
          have hmem : h2 ∈ u.drop ((c.take i).drop j).length := by
            rw [hu2]
            exact List.mem_cons_self _ _
          exact List.drop_subset _ u hmem
        exact hdis a (List.mem_cons_self _ _) (hha ▸ hmemu)
      · -- the occurrence would fit inside the original prefix
        have h1 : isPre u ((c.take i).drop j) = true := isPre_of_append_le hp hge
        have h2 : isPre u ((c.take i).drop j ++ (u ++ c.drop (i + u.length))) = true :=
          isPre_append_right h1 _
        have h3 : (c.drop j) = (c.take i).drop j ++ (u ++ c.drop (i + u.length)) := by
          conv_lhs => rw [hceq]
          exact drop_append_le (by omega)
        have h4 := hleft j (by omega)
        rw [h3, h2] at h4
        cases h4
  calc countOccur u (replaceFirst c u v)
      = countOccur u (c.take i ++ (v ++ c.drop (i + u.length))) := by rw [hrf]
    _ = countOccur u (v ++ c.drop (i + u.length)) := countOccur_shift hnew
    _ = countOccur u (c.drop (i + u.length)) := countOccur_disjoint_append hu hdis _
    _ < countOccur u (u ++ c.drop (i + u.length)) := by
        have := countOccur_self_append hu (c.drop (i + u.length))
        omega
    _ ≤ countOccur u (c.take i ++ (u ++ c.drop (i + u.length))) := countOccur_append_le _ _ _
    _ = countOccur u c := by rw [← hceq]

/-- With an empty replacement each iteration strictly shortens the string. -/
theorem length_replaceFirst_lt {u c : List Char} (hu : u ≠ []) {i : Nat}
    (hfi : firstIndex u c = some i) :
    (replaceFirst c u []).length < c.length := by
  obtain ⟨hceq, hrf⟩ := replaceFirst_split hfi (show '$' ∉ ([] : List Char) by simp)
  have h1 := congrArg List.length hceq
  have h2 := congrArg List.length hrf
  simp only [List.length_append, List.length_nil] at h1 h2
  have : 0 < u.length := List.length_pos.mpr hu
  omega

/- ---------------------------------------------------------------------
Termination and monotonicity of the rewrite loop.
--------------------------------------------------------------------- -/

theorem replaceLoop_term_empty {u : List Char} (hu : u ≠ []) :
    ∀ N c, c.length ≤ N → ∃ n, (replaceLoop n c u []).isSome = true := by
  intro N
  induction N with
  | zero =>
    intro c hc
    cases hg : firstIndex u c with
    | none => exact ⟨0, by simp [replaceLoop, hg]⟩
    | some i =>
      have := length_replaceFirst_lt hu hg
      exact absurd hc (by omega)
  | succ N ih =>
    intro c hc
    cases hg : firstIndex u c with
    | none => exact ⟨0, by simp [replaceLoop, hg]⟩
    | some i =>
      have hlt := length_replaceFirst_lt hu hg
      obtain ⟨n, hn⟩ := ih (replaceFirst c u []) (by omega)
      exact ⟨n + 1, by simp [replaceLoop, hg, hn]⟩

theorem replaceLoop_term_count {u v : List Char} (hu : u ≠ []) (hv : v ≠ [])
    (hd : '$' ∉ v) (hdis : ∀ a ∈ v, a ∉ u) :
    ∀ N c, countOccur u c ≤ N → ∃ n, (replaceLoop n c u v).isSome = true := by
  intro N
  induction N with
  | zero =>
    intro c hc
    cases hg : firstIndex u c with
    | none => exact ⟨0, by simp [replaceLoop, hg]⟩
    | some i =>
      have := countOccur_replaceFirst_lt hu hv hd hdis hg
      exact absurd hc (by omega)
  | succ N ih =>
    intro c hc
    cases hg : firstIndex u c with
    | none => exact ⟨0, by simp [replaceLoop, hg]⟩
    | some i =>
      have hlt := countOccur_replaceFirst_lt hu hv hd hdis hg
      obtain ⟨n, hn⟩ := ih (replaceFirst c u v) (by omega)
      exact ⟨n + 1, by simp [replaceLoop, hg, hn]⟩

theorem replaceLoop_mono (u v : List Char) :
    ∀ n m c r, n ≤ m → replaceLoop n c u v = some r → replaceLoop m c u v = some r := by
  intro n
  induction n with
  | zero =>
    intro m c r _ h0
    cases hg : firstIndex u c with
    | some i => simp [replaceLoop, hg] at h0
    | none =>
      have hr : r = c := by simpa [replaceLoop, hg] using h0.symm
      subst hr
      cases m with
      | zero => simp [replaceLoop, hg]
      | succ m => simp [replaceLoop, hg]
  | succ n ih =>
    intro m c r hnm h
    cases hg : firstIndex u c with
    | none =>
      have hr : r = c := by simpa [replaceLoop, hg] using h.symm
      subst hr
      cases m with
      | zero => simp [replaceLoop, hg]
      | succ m => simp [replaceLoop, hg]
    | some i =>
      have h2 : replaceLoop n (replaceFirst c u v) u v = some r := by
        simpa [replaceLoop, hg] using h
      cases m with
      | zero => omega
      | succ m =>
        have := ih m (replaceFirst c u v) r (by omega) h2
        simp [replaceLoop, hg, this]

theorem foldl_bind_none (fuel : Nat) (rest : List (List Char × List Char)) :
    rest.foldl (fun acc kv => acc.bind (fun c => replaceLoop fuel c kv.1 kv.2)) none = none := by
  induction rest with
  | nil => rfl
  | cons kv rest ih => simpa using ih

theorem applyUpdates_nil (fuel : Nat) (c : List Char) : applyUpdates fuel c [] = some c := rfl

theorem applyUpdates_cons (fuel : Nat) (c : List Char) (kv : List Char × List Char)
    (rest : List (List Char × List Char)) :
    applyUpdates fuel c (kv :: rest)
      = (replaceLoop fuel c kv.1 kv.2).bind (fun c2 => applyUpdates fuel c2 rest) := by
  unfold applyUpdates
  simp only [List.foldl_cons, Option.some_bind]
  cases h : replaceLoop fuel c kv.1 kv.2 with
  | none => simpa using foldl_bind_none fuel rest
  | some c2 => rfl

theorem applyUpdates_mono : ∀ (updates : List (List Char × List Char)) (n m : Nat)
    (c r : List Char), n ≤ m → applyUpdates n c updates = some r →
    applyUpdates m c updates = some r := by
  intro updates
  induction updates with
  | nil => intro n m c r _ h; exact h
  | cons kv rest ih =>
    intro n m c r hnm h
    rw [applyUpdates_cons] at h ⊢
    cases hl : replaceLoop n c kv.1 kv.2 with
    | none => rw [hl] at h; simp at h
    | some c2 =>
      rw [hl] at h
      rw [replaceLoop_mono kv.1 kv.2 n m c c2 hnm hl]
      simp only [Option.some_bind] at h ⊢
      exact ih n m c2 r hnm h

theorem applyUpdates_term : ∀ (ups : List (List Char × List Char)),
    (∀ kv ∈ ups, kv.1 ≠ [] ∧ '$' ∉ kv.2 ∧ (kv.2 = [] ∨ ∀ a ∈ kv.2, a ∉ kv.1)) →
    ∀ c, ∃ n, (applyUpdates n c ups).isSome = true := by
  intro ups
  induction ups with
  | nil => intro _ c; exact ⟨0, rfl⟩
  | cons kv rest ih =>
    intro hups c
    obtain ⟨hk, hd, hcase⟩ := hups kv (List.mem_cons_self _ _)
    have hloop : ∃ n1, (replaceLoop n1 c kv.1 kv.2).isSome = true := by
      by_cases hv : kv.2 = []
      · rw [hv]
        exact replaceLoop_term_empty hk c.length c le_rfl
      · rcases hcase with hcase | hdis
        · exact absurd hcase hv
        · exact replaceLoop_term_count hk hv hd hdis (countOccur kv.1 c) c le_rfl
    obtain ⟨n1, hn1⟩ := hloop
    obtain ⟨c2, hc2⟩ := Option.isSome_iff_exists.mp hn1
    obtain ⟨n2, hn2⟩ := ih (fun kv2 hkv2 => hups kv2 (List.mem_cons_of_mem _ hkv2)) c2
    obtain ⟨r, hr⟩ := Option.isSome_iff_exists.mp hn2
    refine ⟨max n1 n2, ?_⟩
    rw [applyUpdates_cons,
      replaceLoop_mono kv.1 kv.2 n1 (max n1 n2) c c2 (le_max_left _ _) hc2,
      Option.some_bind,
      applyUpdates_mono rest n2 (max n1 n2) c2 r (le_max_right _ _) hr]
    rfl

theorem replaceResources_cons (pid c : List Char) (kv : List Char × List Char)
    (rest : List (List Char × List Char)) (fuel : Nat) :
    replaceResources pid c (kv :: rest) fuel = applyUpdates fuel c (kv :: rest) := rfl

theorem replaceResources_single (pid c u v : List Char) (fuel : Nat) :
    replaceResources pid c [(u, v)] fuel = replaceLoop fuel c u v := by
  rw [replaceResources_cons, applyUpdates_cons]
  cases h : replaceLoop fuel c u v with
  | none => rfl
  | some c2 => rfl

/-- After the loop exits, the loop guard is false: the key no longer occurs
anywhere in the result, whatever the replacement text did. -/
theorem replaceLoop_some_no_occurrence (u v : List Char) :
    ∀ n c out, replaceLoop n c u v = some out → firstIndex u out = none := by
  intro n
  induction n with
  | zero =>
    intro c out h
    cases hg : firstIndex u c with
    | some i => simp [replaceLoop, hg] at h
    | none =>
      have hr : out = c := by simpa [replaceLoop, hg] using h.symm
      rw [hr]
      exact hg
  | succ n ih =>
    intro c out h
    cases hg : firstIndex u c with
    | none =>
      have hr : out = c := by simpa [replaceLoop, hg] using h.symm
      rw [hr]
      exact hg
    | some i =>
      have h2 : replaceLoop n (replaceFirst c u v) u v = some out := by
        simpa [replaceLoop, hg] using h
      exact ih _ _ h2

/- ---------------------------------------------------------------------
Non-termination witness for C9: with key `ab` and value `bbaa` the loop
cycles through the shapes `b^k ++ aab ++ a^m` and `b^k ++ abb ++ a^m`.
--------------------------------------------------------------------- -/

theorem take_replicate_append (c : Char) (w : List Char) :
    ∀ k, (List.replicate k c ++ w).take k = List.replicate k c := by
  intro k
  induction k with
  | zero => simp
  | succ k ih =>
    rw [List.replicate_succ, List.cons_append]
    show c :: (List.replicate k c ++ w).take k = c :: List.replicate k c
    rw [ih]

theorem take_replicate_append_add (c : Char) (w : List Char) (j : Nat) :
    ∀ k, (List.replicate k c ++ w).take (k + j) = List.replicate k c ++ w.take j := by
  intro k
  induction k with
  | zero => simp
  | succ k ih =>
    rw [List.replicate_succ, List.cons_append, show k + 1 + j = (k + j) + 1 from by omega]
    show c :: (List.replicate k c ++ w).take (k + j) = c :: (List.replicate k c ++ w.take j)
    rw [ih]

theorem drop_replicate_append (c : Char) (w : List Char) (j : Nat) :
    ∀ k, (List.replicate k c ++ w).drop (k + j) = w.drop j := by
  intro k
  induction k with
  | zero => simp
  | succ k ih =>
    rw [List.replicate_succ, List.cons_append, show k + 1 + j = (k + j) + 1 from by omega]
    show (List.replicate k c ++ w).drop (k + j) = w.drop j
    exact ih

theorem firstIndex_ab_repb (w : List Char) :
    ∀ k, firstIndex ['a', 'b'] (List.replicate k 'b' ++ w)
      = (firstIndex ['a', 'b'] w).map (fun i => i + k) := by
  intro k
  induction k with
  | zero =>
    simp only [List.replicate_zero, List.nil_append]
    cases firstIndex ['a', 'b'] w <;> simp
  | succ k ih =>
    rw [List.replicate_succ, List.cons_append]
    have hnp : isPre ['a', 'b'] ('b' :: (List.replicate k 'b' ++ w)) = false := by
      simp [isPre]
    rw [show firstIndex ['a', 'b'] ('b' :: (List.replicate k 'b' ++ w))
          = if isPre ['a', 'b'] ('b' :: (List.replicate k 'b' ++ w)) then some 0
            else (firstIndex ['a', 'b'] (List.replicate k 'b' ++ w)).map (fun i => i + 1)
          from rfl]
    rw [hnp]
    simp only [Bool.false_eq_true, if_false]
    rw [ih]
    cases firstIndex ['a', 'b'] w with
    | none => rfl
    | some i =>
      show some (i + k + 1) = some (i + (k + 1))
      exact congrArg some (by omega)

theorem firstIndex_aab (t : List Char) :
    firstIndex ['a', 'b'] ('a' :: 'a' :: 'b' :: t) = some 1 := by
  have h1 : isPre ['a', 'b'] ('a' :: 'a' :: 'b' :: t) = false := by simp [isPre]
  have h2 : isPre ['a', 'b'] ('a' :: 'b' :: t) = true := by simp [isPre]
  rw [show firstIndex ['a', 'b'] ('a' :: 'a' :: 'b' :: t)
        = if isPre ['a', 'b'] ('a' :: 'a' :: 'b' :: t) then some 0
          else (firstIndex ['a', 'b'] ('a' :: 'b' :: t)).map (fun i => i + 1) from rfl]
  rw [h1]
  simp only [Bool.false_eq_true, if_false]
  rw [show firstIndex ['a', 'b'] ('a' :: 'b' :: t)
        = if isPre ['a', 'b'] ('a' :: 'b' :: t) then some 0
          else (firstIndex ['a', 'b'] ('b' :: t)).map (fun i => i + 1) from rfl]
  rw [h2]
  rfl

theorem firstIndex_abb (t : List Char) :
    firstIndex ['a', 'b'] ('a' :: 'b' :: t) = some 0 := by
  have h2 : isPre ['a', 'b'] ('a' :: 'b' :: t) = true := by simp [isPre]
  rw [show firstIndex ['a', 'b'] ('a' :: 'b' :: t)
        = if isPre ['a', 'b'] ('a' :: 'b' :: t) then some 0
          else (firstIndex ['a', 'b'] ('b' :: t)).map (fun i => i + 1) from rfl]
  rw [h2]
  rfl

theorem firstIndex_cexS1 (k m : Nat) :
    firstIndex ['a', 'b'] (List.replicate k 'b' ++ 'a' :: 'a' :: 'b' :: List.replicate m 'a')
      = some (k + 1) := by
  rw [firstIndex_ab_repb, firstIndex_aab]
  show some (1 + k) = some (k + 1)
  exact congrArg some (by omega)

theorem firstIndex_cexS2 (k m : Nat) :
    firstIndex ['a', 'b'] (List.replicate k 'b' ++ 'a' :: 'b' :: 'b' :: List.replicate m 'a')
      = some k := by
  rw [firstIndex_ab_repb, firstIndex_abb]
  show some (0 + k) = some k
  exact congrArg some (by omega)

theorem replaceFirst_cexS1 (k m : Nat) :
    replaceFirst (List.replicate k 'b' ++ 'a' :: 'a' :: 'b' :: List.replicate m 'a')
        ['a', 'b'] ['b', 'b', 'a', 'a']
      = List.replicate k 'b' ++ 'a' :: 'b' :: 'b' :: List.replicate (m + 2) 'a' := by
  unfold replaceFirst
  rw [firstIndex_cexS1]
  dsimp only
  rw [getSubstitution_no_dollar _ _ _ (by decide)]
  rw [take_replicate_append_add 'b' _ 1 k]
  rw [show k + 1 + (['a', 'b'] : List Char).length = k + 3 from by simp]
  rw [drop_replicate_append 'b' _ 3 k]
  simp [List.replicate_succ, List.append_assoc]

theorem replicate_append_cons (c : Char) (Y : List Char) :
    ∀ k, List.replicate k c ++ c :: Y = c :: (List.replicate k c ++ Y) := by
  intro k
  induction k with
  | zero => simp
  | succ k ih =>
    rw [List.replicate_succ, List.cons_append, ih, List.cons_append]

theorem replaceFirst_cexS2 (k m : Nat) :
    replaceFirst (List.replicate k 'b' ++ 'a' :: 'b' :: 'b' :: List.replicate m 'a')
        ['a', 'b'] ['b', 'b', 'a', 'a']
      = List.replicate (k + 2) 'b' ++ 'a' :: 'a' :: 'b' :: List.replicate m 'a' := by
  unfold replaceFirst
  rw [firstIndex_cexS2]
  dsimp only
  rw [getSubstitution_no_dollar _ _ _ (by decide)]
  rw [take_replicate_append 'b' _ k]
  rw [show k + (['a', 'b'] : List Char).length = k + 2 from by simp]
  rw [drop_replicate_append 'b' _ 2 k]
  rw [show ('a' :: 'b' :: 'b' :: List.replicate m 'a').drop 2 = 'b' :: List.replicate m 'a'
        from rfl]
  rw [List.replicate_add]
  rw [List.append_assoc]
  rw [List.append_assoc]
  rw [show (List.replicate 2 'b' : List Char) ++ 'a' :: 'a' :: 'b' :: List.replicate m 'a'
        = 'b' :: 'b' :: 'a' :: 'a' :: 'b' :: List.replicate m 'a' from rfl]
  rfl

theorem replaceLoop_cexS1_none :
    ∀ n k m,
      replaceLoop n (List.replicate k 'b' ++ 'a' :: 'a' :: 'b' :: List.replicate m 'a')
          ['a', 'b'] ['b', 'b', 'a', 'a'] = none := by
  have main : ∀ n k m,
      replaceLoop n (List.replicate k 'b' ++ 'a' :: 'a' :: 'b' :: List.replicate m 'a')
          ['a', 'b'] ['b', 'b', 'a', 'a'] = none ∧
      replaceLoop n (List.replicate k 'b' ++ 'a' :: 'b' :: 'b' :: List.replicate m 'a')
          ['a', 'b'] ['b', 'b', 'a', 'a'] = none := by
    intro n
    induction n with
    | zero =>
      intro k m
      constructor
      · simp [replaceLoop, firstIndex_cexS1]
      · simp [replaceLoop, firstIndex_cexS2]
    | succ n ih =>
      intro k m
      constructor
      · have hg : (firstIndex ['a', 'b']
            (List.replicate k 'b' ++ 'a' :: 'a' :: 'b' :: List.replicate m 'a')).isSome
              = true := by
          rw [firstIndex_cexS1]; rfl
        simp only [replaceLoop, hg, eq_self_iff_true, if_true]
        rw [replaceFirst_cexS1]
        exact (ih k (m + 2)).2
      · have hg : (firstIndex ['a', 'b']
            (List.replicate k 'b' ++ 'a' :: 'b' :: 'b' :: List.replicate m 'a')).isSome
              = true := by
          rw [firstIndex_cexS2]; rfl
        simp only [replaceLoop, hg, eq_self_iff_true, if_true]
        rw [replaceFirst_cexS2]
        exact (ih (k + 2) m).1
  intro n k m
  exact (main n k m).1

/-- C9 counterexample.  The claimed precondition — the mapped value does not
contain its own key — does NOT rule out non-termination: with key `ab`,
value `bbaa` (which contains no `ab`) and content `aab`, the while loop of
`replaceResources` runs forever (it cycles through the shapes
`b^k ++ aab ++ a^m`, each iteration growing the string), so no amount of
fuel makes the embedded loop finish. -/
theorem replaceLoop_nonterminating_cex :
    firstIndex (str "ab") (str "bbaa") = none ∧
    ¬ rewriteTerminates (str "1") (str "aab") [(str "ab", str "bbaa")] := by
  refine ⟨by decide, ?_⟩
  rintro ⟨n, hn⟩
  rw [replaceResources_single] at hn
  rw [show str "ab" = ['a', 'b'] from by decide,
      show str "bbaa" = ['b', 'b', 'a', 'a'] from by decide,
      show str "aab" = List.replicate 0 'b' ++ 'a' :: 'a' :: 'b' :: List.replicate 0 'a'
        from by decide] at hn
  rw [replaceLoop_cexS1_none n 0 0] at hn
  cases hn

/-- C9 amended.  The rewrite loop terminates for every content and update map
in which every key is nonempty and every value either is empty or contains
neither any character of its own key nor a dollar sign (so no replacement can
ever create a new occurrence of the key). -/
theorem replaceLoop_termination_amended (pid content : List Char)
    (updates : List (List Char × List Char))
    (h : ∀ kv ∈ updates, kv.1 ≠ [] ∧ '$' ∉ kv.2 ∧ (kv.2 = [] ∨ ∀ a ∈ kv.2, a ∉ kv.1)) :
    rewriteTerminates pid content updates := by
  cases updates with
  | nil => exact ⟨0, rfl⟩
  | cons kv rest =>
    obtain ⟨n, hn⟩ := applyUpdates_term (kv :: rest) h content
    exact ⟨n, by rwa [replaceResources_cons]⟩

/-- Witness for C9 (amended): a key/value pair satisfying the amended
precondition on a content with two occurrences. -/
theorem replaceLoop_termination_amended_witness :
    rewriteTerminates (str "1") (str "abcabc") [(str "ab", str "xy")] :=
  replaceLoop_termination_amended (str "1") (str "abcabc") [(str "ab", str "xy")] (by decide)

/-- C6 counterexample.  The claim "exactly three occurrences of R2" is false:
content `abcabcabc` contains `c` exactly three times, `aba` does not contain
`c`, yet the rewritten output `ababaababaababa` contains `aba` six times
(three inserted copies plus three formed with the surrounding text). -/
theorem replaceResources_three_occurrence_cex :
    countOccur (str "c") (str "abcabcabc") = 3 ∧
    firstIndex (str "c") (str "aba") = none ∧
    replaceResources (str "1") (str "abcabcabc") [(str "c", str "aba")] 4
      = some (str "ababaababaababa") ∧
    countOccur (str "c") (str "ababaababaababa") = 0 ∧
    countOccur (str "aba") (str "ababaababaababa") = 6 := by
  decide

/-- C6 amended.  The rewriter is exhaustive for each key: whenever the loop
finishes, the key has zero occurrences in the output (first conjunct, for
every content, key and value).  In the non-overlapping scenario the output
contains exactly three copies of the replacement for a reference occurring
three times (second conjunct); in general the count of R2 can exceed three
(see the counterexample). -/
theorem replaceResources_replaces_all_amended :
    (∀ (pid c u v : List Char) (fuel : Nat) (out : List Char),
        replaceResources pid c [(u, v)] fuel = some out → firstIndex u out = none) ∧
    (countOccur (str "ab") (str "ab ab ab") = 3 ∧
     firstIndex (str "ab") (str "cd") = none ∧
     replaceResources (str "1") (str "ab ab ab") [(str "ab", str "cd")] 4
       = some (str "cd cd cd") ∧
     countOccur (str "ab") (str "cd cd cd") = 0 ∧
     countOccur (str "cd") (str "cd cd cd") = 3) := by
  constructor
  · intro pid c u v fuel out h
    rw [replaceResources_single] at h
    exact replaceLoop_some_no_occurrence u v fuel c out h
  · decide

/-- Witness for C6 (amended): the universally quantified conjunct applied at
the concrete scenario. -/
theorem replaceResources_replaces_all_amended_witness :
    firstIndex (str "ab") (str "cd cd cd") = none :=
  replaceResources_replaces_all_amended.1 (str "1") (str "ab ab ab") (str "ab") (str "cd") 4
    (str "cd cd cd") (by decide)

/-- Witness for C10 at two distinct references sharing the basename
`pic.jpg`. -/
theorem newLocation_basename_collision_witness :
    objectName (str "7") (str "/stuff/pic.jpg")
      = objectName (str "7") (str "/wp-content/uploads/2012/pic.jpg") ∧
    newLocation envAllOk (str "7") (str "/stuff/pic.jpg")
      = newLocation envAllOk (str "7") (str "/wp-content/uploads/2012/pic.jpg") := by
  have h := newLocation_basename_collision envAllOk (str "7") (str "/stuff/pic.jpg")
    (str "/wp-content/uploads/2012/pic.jpg") (by decide) (by decide) (by decide) (by decide)
  exact ⟨h.1, h.2.1⟩

end WPMigrate
